import Mathlib

/-!
Shallow embedding of `trace_icons.py` (Proto4j/proto4j-iconmgr).

Python strings are modelled as `List Char`.  Python `int` is arbitrary
precision, modelled as `Int` (keys) and `Nat` (flag bitmasks, always
non-negative).
-/

namespace TraceIcons

/-- Python `p in s` substring test (for the patterns used here, all
non-empty; `p = []` yields `true`, as in Python). -/
def containsSub : List Char → List Char → Bool
  | [], p => p.isEmpty
  | c :: cs, p => p.isPrefixOf (c :: cs) || containsSub cs p

/-- Python `s.find(p)`: index of the first occurrence of `p` in `s`,
`none` standing for Python's `-1`. -/
def findSub (p : List Char) : List Char → Option Nat
  | [] => if p.isEmpty then some 0 else none
  | c :: cs =>
    if p.isPrefixOf (c :: cs) then some 0
    else (findSub p cs).map (fun i => i + 1)

/-- Python `s.replace(old, new)`: replace every non-overlapping occurrence
of `old`, scanning left to right, never rescanning the replacement.  The
fuel argument makes the recursion structural; `replaceAll` supplies
`s.length`, which suffices for every non-empty pattern. -/
def replaceAllAux (p r : List Char) : Nat → List Char → List Char
  | 0, s => s
  | _ + 1, [] => []
  | fuel + 1, c :: cs =>
    if p.isPrefixOf (c :: cs) then r ++ replaceAllAux p r fuel (List.drop p.length (c :: cs))
    else c :: replaceAllAux p r fuel cs

/-- Python `s.replace(old, new)` for the non-empty patterns used by the
program. -/
def replaceAll (p r s : List Char) : List Char :=
  replaceAllAux p r s.length s

/-- Source `get_flags(name)`: flag bits derived from a filename by
substring tests, first match winning. -/
def get_flags (name : List Char) : Nat :=
  if containsSub name ("@2x.").toList then 1
  else if containsSub name ("@2x_dark").toList then 4
  else if containsSub name ("_dark").toList then 2
  else if containsSub name ("_stroke").toList then 8
  else 0

/-- Source `normalize_name(name)`: strip `"_dark"`, `"_stroke"`, `"@2x"`
in that order (each pass on the previous result), then turn every `-`
into `_`. -/
def normalize_name (name : List Char) : List Char :=
  let r1 := replaceAll ("_dark").toList [] name
  let r2 := replaceAll ("_stroke").toList [] r1
  let r3 := replaceAll ("@2x").toList [] r2
  replaceAll ['-'] ['_'] r3

example : normalize_name ("icon_dark@2x").toList = ("icon").toList := by decide
example : normalize_name ("my-icon_stroke").toList = ("my_icon").toList := by decide
example : normalize_name ("-dark").toList = ("_dark").toList := by decide
example : get_flags ("icon@2x_dark.svg").toList = 4 := by decide
example : get_flags ("icon_dark@2x.svg").toList = 1 := by decide
example : findSub ("icons").toList ("/a/b/icons/x/y").toList = some 5 := by decide

/-- Index of the last occurrence of `c` in a list, Python `s.rfind(c)`
(with `none` for `-1`). -/
def rfindIdx (c : Char) : List Char → Option Nat
  | [] => none
  | a :: as =>
    match rfindIdx c as with
    | some i => some (i + 1)
    | none => if a = c then some 0 else none

/-- CPython `pathlib.PurePath.suffix` of a final component: `name[i:]` for
`i = name.rfind(".")` when `0 < i < len(name) - 1`, else the empty
string. -/
def suffix (name : List Char) : List Char :=
  match rfindIdx '.' name with
  | some i => if 0 < i ∧ i + 1 < name.length then List.drop i name else []
  | none => []

/-- CPython `pathlib.PurePath.stem`: `name[:i]` under the same condition
as `suffix`, else the whole name. -/
def stem (name : List Char) : List Char :=
  match rfindIdx '.' name with
  | some i => if 0 < i ∧ i + 1 < name.length then List.take i name else name
  | none => name

example : suffix ("foo.svg").toList = (".svg").toList := by decide
example : stem ("foo.svg").toList = ("foo").toList := by decide
example : suffix (".svg").toList = [] := by decide
example : stem (".svg").toList = (".svg").toList := by decide

/-- Hexadecimal digits of a natural number, lowercase, most significant
first (`Nat.toDigits 16` matches Python's digit choice). -/
def natHex (n : Nat) : List Char :=
  Nat.toDigits 16 n

/-- Python `hex(i)`: `0x...` for non-negative `i`, `-0x...` for negative
`i` (sign-magnitude, lowercase digits). -/
def pyHex : Int → List Char
  | Int.ofNat n => '0' :: 'x' :: natHex n
  | Int.negSucc n => '-' :: '0' :: 'x' :: natHex (n + 1)

example : pyHex (-243615036) = ("-0xe85453c").toList := by decide
example : pyHex 2 = ("0x2").toList := by decide

/-- Python `str.capitalize()`: first character uppercased, every
remaining character lowercased (modelled per character, which agrees with
CPython on the ASCII names this program handles). -/
def pyCapitalize : List Char → List Char
  | [] => []
  | c :: cs => Char.toUpper c :: cs.map Char.toLower

/-- Source dataclass `JField`: one icon accessor record. -/
structure JField where
  name : List Char
  key : Int
  flags : Nat
  path : List Char
deriving DecidableEq

/-- Source `JField.__str__`: the emitted declaration line
`public static final Icon <Name> = load("/<path>", <hexkey>L, <hexflags>);`. -/
def JField.str (f : JField) : List Char :=
  ("public static final Icon ").toList ++ pyCapitalize f.name
    ++ (" = load(\"/").toList ++ f.path
    ++ ("\", ").toList ++ pyHex f.key
    ++ ("L, ").toList ++ pyHex (Int.ofNat f.flags)
    ++ (");").toList

/-- Take the name's first character to uppercase and leave every other
character untouched (the claim's reading of "capitalized"). -/
def capFirst : List Char → List Char
  | [] => []
  | c :: cs => Char.toUpper c :: cs

/-- Comma-space separated argument list. -/
def joinArgs : List (List Char) → List Char
  | [] => []
  | [a] => a
  | a :: rest => a ++ (", ").toList ++ joinArgs rest

/-- A call of the local `load` helper with the given rendered arguments. -/
def loadCall (args : List (List Char)) : List Char :=
  ("load(").toList ++ joinArgs args ++ [')']

/-- A double-quoted string literal argument. -/
def quoteArg (s : List Char) : List Char :=
  '"' :: (s ++ ['"'])

/-- Declaration line as the specification describes it, parameterized by
the identifier: a public-static-final accessor initialized by a `load`
call on the leading-slash path literal, the signed hex key with `L`
suffix, and the plain hex flags. -/
def declLineSpec (ident : List Char) (f : JField) : List Char :=
  ("public static final Icon ").toList ++ ident ++ (" = ").toList
    ++ loadCall [quoteArg ('/' :: f.path), pyHex f.key ++ ['L'], pyHex (Int.ofNat f.flags)]
    ++ [';']

/-- The claim's reading: identifier is the name with only its first
character altered. -/
def declLine_claim (f : JField) : List Char :=
  declLineSpec (capFirst f.name) f

/-- The amended reading: identifier is the Python-`capitalize`d name
(first character uppercased, the rest lowercased). -/
def declLine_amended (f : JField) : List Char :=
  declLineSpec (pyCapitalize f.name) f

example :
    JField.str ⟨("foo").toList, -1, 2, ("icons/foo").toList⟩ =
      ("public static final Icon Foo = load(\"/icons/foo\", -0x1L, 0x2);").toList := by
  decide

/-- Path-truncation step of `_process_file`: `idx = str(p).find(src)`,
then `p[idx:]` when found, `p` unchanged otherwise. -/
def truncate_path (src path : List Char) : List Char :=
  match findSub src path with
  | some i => List.drop i path
  | none => path

example : truncate_path ("icons").toList ("/a/b/icons/x/y").toList = ("icons/x/y").toList := by
  decide

/-- A value of the collector's `icon_map` dictionaries: either a `JField`
leaf or a nested directory dictionary (`type(jfield) == JField` in the
source discriminates the two). -/
inductive Node where
  | leaf : JField → Node
  | node : List (List Char × Node) → Node

/-- DirectoryNode contents: an insertion-ordered Python dict, modelled as
an association list. -/
abbrev IconMap := List (List Char × Node)

/-- Python `d[k] = v`: overwrite in place when the key exists, append
otherwise. -/
def insertAssoc (k : List Char) (v : Node) : IconMap → IconMap
  | [] => [(k, v)]
  | (k0, v0) :: rest =>
    if k0 = k then (k0, v) :: rest else (k0, v0) :: insertAssoc k v rest

/-- The duplicate scan of `_process_file`: walk the dict in order; at the
first `JField` leaf whose `name` equals the given one, OR the new flags
into it and stop (`some` updated map); `none` when no such leaf exists. -/
def orFirst (name : List Char) (flags : Nat) : IconMap → Option IconMap
  | [] => none
  | (k, Node.leaf f) :: rest =>
    if f.name = name then
      some ((k, Node.leaf ⟨f.name, f.key, f.flags ||| flags, f.path⟩) :: rest)
    else
      (orFirst name flags rest).map (fun r => (k, Node.leaf f) :: r)
  | (k, Node.node m) :: rest =>
    (orFirst name flags rest).map (fun r => (k, Node.node m) :: r)

/-- Number of top-level `JField` leaves of a map carrying a given
normalized name. -/
def countLeafName (name : List Char) : IconMap → Nat
  | [] => 0
  | (_, Node.leaf f) :: rest =>
    (if f.name = name then 1 else 0) + countLeafName name rest
  | (_, Node.node _) :: rest => countLeafName name rest

/-- First top-level `JField` leaf of a map carrying a given normalized
name, in dict order. -/
def findLeaf (name : List Char) : IconMap → Option JField
  | [] => none
  | (_, Node.leaf f) :: rest =>
    if f.name = name then some f else findLeaf name rest
  | (_, Node.node _) :: rest => findLeaf name rest

/-- Source `IconCollector._process_file(path, dest)`, with the collector
state made explicit: `src` is `self.src`, `exts` is `self.extensions`,
`dirPath` is the string of `path.parent`, `key` is `self.key` (already
decremented by `_process_dir`), `fname` is `path.name`.  `path.parent /
name` is modelled as `dirPath ++ "/" ++ name` and `str(...)` /
`as_posix()` both as that same string (the POSIX reading of `pathlib`). -/
def process_file (src : List Char) (exts : List (List Char)) (dirPath : List Char)
    (key : Int) (fname : List Char) (dest : IconMap) : IconMap :=
  if suffix fname ∈ exts then
    let flags := get_flags fname
    let name := normalize_name (stem fname)
    let full_name := truncate_path src (dirPath ++ '/' :: name)
    match orFirst name flags dest with
    | some updated => updated
    | none => insertAssoc full_name (Node.leaf ⟨name, key, flags, full_name⟩) dest
  else dest

/-- A filesystem entry as `_process_dir` sees it: `child.is_dir()` is
false for `file`, true for `dir`; the list under `dir` is the iteration
order `iterdir` yields. -/
inductive FSEntry where
  | file : List Char → FSEntry
  | dir : List Char → List FSEntry → FSEntry

/-- Non-directory entries visited while processing a directory, its
subdirectories included. -/
def countFiles : List FSEntry → Nat
  | [] => 0
  | FSEntry.file _ :: rest => countFiles rest + 1
  | FSEntry.dir _ cs :: rest => countFiles cs + countFiles rest

/-- Source `IconCollector._process_dir(path, imap)`: for each child in
order, a file decrements the key and is handed to `_process_file`; a
directory is processed into a fresh map that is then stored under the
child's name.  The pair threads `(self.key, imap)`. -/
def process_dir (src : List Char) (exts : List (List Char)) (dirPath : List Char) :
    List FSEntry → Int × IconMap → Int × IconMap
  | [], st => st
  | FSEntry.file n :: rest, (key, imap) =>
    process_dir src exts dirPath rest
      (key - 1, process_file src exts dirPath (key - 1) n imap)
  | FSEntry.dir n children :: rest, (key, imap) =>
    let sub := process_dir src exts (dirPath ++ '/' :: n) children (key, [])
    process_dir src exts dirPath rest (sub.1, insertAssoc n (Node.node sub.2) imap)

/-- Source `IconCollector.process(directory)` on a collector freshly
constructed with starting key `key0`: run `_process_dir` on the root's
children with an empty `icon_map`. -/
def process (src : List Char) (exts : List (List Char)) (rootPath : List Char)
    (children : List FSEntry) (key0 : Int) : Int × IconMap :=
  process_dir src exts rootPath children (key0, [])

/-- Default starting key of `IconCollector.__init__`. -/
def defaultKey : Int := -243615036

/-- Default extension allow-list of `IconCollector.__init__`. -/
def defaultExts : List (List Char) :=
  [(".svg").toList, (".png").toList]

/-! ### Lemmas about the string primitives -/

/-- A pattern that does not occur in `s` is never replaced, whatever the
fuel. -/
theorem replaceAllAux_of_not_containsSub (p r : List Char) :
    ∀ (fuel : Nat) (s : List Char), containsSub s p = false → replaceAllAux p r fuel s = s := by
  intro fuel
  induction fuel with
  | zero => intro s _; rfl
  | succ n ih =>
    intro s hs
    cases s with
    | nil => rfl
    | cons c cs =>
      simp only [containsSub, Bool.or_eq_false_iff] at hs
      simp only [replaceAllAux, hs.1, Bool.false_eq_true, if_false]
      rw [ih cs hs.2]

/-- The same, through `replaceAll`. -/
theorem replaceAll_of_not_containsSub (p r s : List Char) (h : containsSub s p = false) :
    replaceAll p r s = s :=
  replaceAllAux_of_not_containsSub p r s.length s h

/-- Containment of a single character is membership. -/
theorem containsSub_singleton (c : Char) :
    ∀ s : List Char, containsSub s [c] = true ↔ c ∈ s := by
  intro s
  induction s with
  | nil => simp [containsSub]
  | cons a as ih =>
    simp only [containsSub, Bool.or_eq_true, ih, List.mem_cons, List.isPrefixOf,
      Bool.and_true, beq_iff_eq]

/-- Replacing every `-` by `_` leaves no `-` behind (given enough fuel). -/
theorem dash_not_mem_replaceAllAux :
    ∀ (fuel : Nat) (s : List Char), s.length ≤ fuel →
      '-' ∉ replaceAllAux ['-'] ['_'] fuel s := by
  intro fuel
  induction fuel with
  | zero =>
    intro s hs
    rw [Nat.le_zero, List.length_eq_zero] at hs
    subst hs
    simp [replaceAllAux]
  | succ n ih =>
    intro s hs
    cases s with
    | nil => simp [replaceAllAux]
    | cons c cs =>
      simp only [List.length_cons, Nat.succ_le_succ_iff] at hs
      by_cases hc : c = '-'
      · subst hc
        have hstep : replaceAllAux ['-'] ['_'] (n + 1) ('-' :: cs) =
            '_' :: replaceAllAux ['-'] ['_'] n cs := by
          simp [replaceAllAux, List.isPrefixOf]
        rw [hstep]
        intro hmem
        rcases List.mem_cons.mp hmem with h1 | h2
        · exact absurd h1 (by decide)
        · exact ih cs hs h2
      · have hpre : List.isPrefixOf ['-'] (c :: cs) = false := by
          simp only [List.isPrefixOf, Bool.and_true, beq_eq_false_iff_ne, ne_eq]
          exact fun h => hc h.symm
        have hstep : replaceAllAux ['-'] ['_'] (n + 1) (c :: cs) =
            c :: replaceAllAux ['-'] ['_'] n cs := by
          simp [replaceAllAux, hpre]
        rw [hstep]
        intro hmem
        rcases List.mem_cons.mp hmem with h1 | h2
        · exact hc h1.symm
        · exact ih cs hs h2

/-- The result of `normalize_name` never contains `-`. -/
theorem dash_not_mem_normalize_name (s : List Char) : '-' ∉ normalize_name s := by
  unfold normalize_name
  exact dash_not_mem_replaceAllAux _ _ (Nat.le_refl _)

/-! ### C1 -/

/-- C1 counterexample: the filename `icon@2x_dark.svg` contains
`"@2x_dark"` (and not `"@2x."`, since an underscore follows `2x`), and
`get_flags` returns 4 on it, not 1 — the flag-4 branch is reachable. -/
theorem get_flags_at_2x_dark_counterexample :
    containsSub (("icon@2x_dark.svg").toList) (("@2x_dark").toList) = true ∧
      get_flags (("icon@2x_dark.svg").toList) = 4 := by
  constructor
  · decide
  · decide

/-- C1 (amended): the flag-4 branch of `get_flags` is reachable: every
filename that contains `"@2x_dark"` but not `"@2x."` gets flag 4, and
only a filename that also contains `"@2x."` (dot right after `2x`
somewhere) gets flag 1. -/
theorem get_flags_2x_dark_eq_four (name : List Char)
    (hdark : containsSub name (("@2x_dark").toList) = true)
    (hdot : containsSub name (("@2x.").toList) = false) :
    get_flags name = 4 := by
  simp only [get_flags, hdark, hdot]
  simp

/-- C1 witness: the amended theorem applied at `logo@2x_dark.png`. -/
theorem get_flags_2x_dark_eq_four_witness :
    get_flags (("logo@2x_dark.png").toList) = 4 :=
  get_flags_2x_dark_eq_four (("logo@2x_dark.png").toList) (by decide) (by decide)

/-! ### C9 -/

/-- C9: every filename containing `"@2x."` is given flag 1 by
`get_flags`, whatever other variant substrings it also contains — the
first branch wins. -/
theorem get_flags_2x_dot_eq_one (name : List Char)
    (h : containsSub name (("@2x.").toList) = true) :
    get_flags name = 1 := by
  simp only [get_flags, h]
  simp

/-- C9 witness: the theorem applied at `bar_dark_stroke@2x.png`, which
also contains `"_dark"` and `"_stroke"`. -/
theorem get_flags_2x_dot_eq_one_witness :
    get_flags (("bar_dark_stroke@2x.png").toList) = 1 :=
  get_flags_2x_dot_eq_one (("bar_dark_stroke@2x.png").toList) (by decide)

/-! ### C2 -/

/-- C2 counterexample: normalization is not idempotent.  On `-dark` the
dash pass manufactures a fresh `_dark`, so a second normalization strips
it: `normalize_name "-dark" = "_dark"` but
`normalize_name (normalize_name "-dark") = ""`. -/
theorem normalize_name_not_idempotent :
    normalize_name (normalize_name (("-dark").toList)) ≠ normalize_name (("-dark").toList) := by
  decide

/-- C2 (amended): `normalize_name` is idempotent exactly on the inputs
whose normalized form contains none of the removal targets `"_dark"`,
`"_stroke"`, `"@2x"`: for such inputs a second normalization returns the
first result unchanged (the dash pass alone can never act twice, because
a normalized name never contains `-`). -/
theorem normalize_name_idempotent (s : List Char)
    (h1 : containsSub (normalize_name s) (("_dark").toList) = false)
    (h2 : containsSub (normalize_name s) (("_stroke").toList) = false)
    (h3 : containsSub (normalize_name s) (("@2x").toList) = false) :
    normalize_name (normalize_name s) = normalize_name s := by
  have hdash : containsSub (normalize_name s) ['-'] = false := by
    rw [Bool.eq_false_iff]
    intro hcontra
    exact dash_not_mem_normalize_name s ((containsSub_singleton '-' (normalize_name s)).mp hcontra)
  generalize hgen : normalize_name s = n at h1 h2 h3 hdash
  simp only [normalize_name]
  rw [replaceAll_of_not_containsSub _ _ _ h1, replaceAll_of_not_containsSub _ _ _ h2,
    replaceAll_of_not_containsSub _ _ _ h3, replaceAll_of_not_containsSub _ _ _ hdash]

/-- C2 witness: the amended theorem applied at `my-icon_dark@2x`, whose
normalization `my_icon` is clean of all three targets. -/
theorem normalize_name_idempotent_witness :
    normalize_name (normalize_name (("my-icon_dark@2x").toList)) =
      normalize_name (("my-icon_dark@2x").toList) :=
  normalize_name_idempotent (("my-icon_dark@2x").toList) (by decide) (by decide) (by decide)

/-! ### C4 -/

/-- C4 counterexample: Python `str.capitalize` lowercases everything past
the first character, so for the entry name `myIcon` the emitted
identifier is `Myicon`, not `MyIcon` — the declaration line is not the
claimed one with only the first character altered. -/
theorem declLine_claim_counterexample :
    JField.str ⟨("myIcon").toList, -1, 2, ("icons/myIcon").toList⟩ ≠
      declLine_claim ⟨("myIcon").toList, -1, 2, ("icons/myIcon").toList⟩ := by
  decide

/-- C4 (amended): every emitted declaration line is the
public-static-final accessor whose identifier is the entry's name with
its first character uppercased and all remaining characters lowercased
(Python `capitalize`), initialized by a `load` call on the
leading-slash-quoted path, the signed hex key with `L` suffix, and the
plain hex flags. -/
theorem declLine_amended_correct (f : JField) :
    JField.str f = declLine_amended f := by
  cases f with
  | mk n k fl p =>
    simp only [JField.str, declLine_amended, declLineSpec, loadCall, joinArgs, quoteArg,
      List.append_assoc, List.cons_append, List.nil_append]
    rfl

/-! ### C6 -/

/-- First-occurrence property of `findSub`: a hit is a position where the
pattern starts, and no earlier position is one. -/
theorem findSub_first (p : List Char) :
    ∀ (s : List Char) (i : Nat), findSub p s = some i →
      p.isPrefixOf (List.drop i s) = true ∧
      ∀ j, p.isPrefixOf (List.drop j s) = true → i ≤ j := by
  intro s
  induction s with
  | nil =>
    intro i hi
    simp only [findSub] at hi
    by_cases hp : p.isEmpty
    · rw [if_pos hp] at hi
      cases hi
      constructor
      · cases p with
        | nil => simp [List.isPrefixOf]
        | cons a as => simp at hp
      · intro j _
        exact Nat.zero_le j
    · rw [if_neg hp] at hi
      cases hi
  | cons c cs ih =>
    intro i hi
    simp only [findSub] at hi
    by_cases hpre : p.isPrefixOf (c :: cs) = true
    · rw [if_pos hpre] at hi
      cases hi
      exact ⟨hpre, fun j _ => Nat.zero_le j⟩
    · rw [if_neg (by simpa using hpre)] at hi
      rcases Option.map_eq_some'.mp hi with ⟨i0, hi0, hisum⟩
      subst hisum
      rcases ih i0 hi0 with ⟨hpre0, hmin0⟩
      constructor
      · simpa [List.drop_succ_cons] using hpre0
      · intro j hj
        cases j with
        | zero => exact absurd (by simpa using hj) hpre
        | succ j0 =>
          have := hmin0 j0 (by simpa [List.drop_succ_cons] using hj)
          omega

/-- A failed `findSub` means the pattern occurs nowhere. -/
theorem findSub_none_iff (p : List Char) :
    ∀ s : List Char, findSub p s = none ↔ containsSub s p = false := by
  intro s
  induction s with
  | nil =>
    simp only [findSub, containsSub]
    by_cases hp : p.isEmpty
    · simp [hp]
    · simp [hp]
  | cons c cs ih =>
    simp only [findSub, containsSub]
    by_cases hpre : p.isPrefixOf (c :: cs) = true
    · simp [hpre]
    · have hpre2 : p.isPrefixOf (c :: cs) = false := Bool.eq_false_iff.mpr hpre
      simp only [Bool.or_eq_false_iff]
      rw [if_neg hpre]
      simp [Option.map_eq_none', ih, hpre2]

/-- C6: when the source marker occurs in the computed path, the stored
path is the suffix of the path beginning at the first occurrence of the
marker (`_process_file` slices at `str(path).find(src)`); when the marker
is absent, the path is kept unchanged. -/
theorem truncate_path_spec (src path : List Char) :
    (∀ i, findSub src path = some i →
      truncate_path src path = List.drop i path ∧
      src.isPrefixOf (List.drop i path) = true ∧
      ∀ j, src.isPrefixOf (List.drop j path) = true → i ≤ j) ∧
    (containsSub path src = false → truncate_path src path = path) := by
  constructor
  · intro i hi
    rcases findSub_first src path i hi with ⟨h1, h2⟩
    refine ⟨?_, h1, h2⟩
    simp [truncate_path, hi]
  · intro hno
    have : findSub src path = none := (findSub_none_iff src path).mpr hno
    simp [truncate_path, this]

/-- C6 witness: the theorem applied at marker `icons` and path
`/a/b/icons/x/y`, whose first marker occurrence is at index 5, giving
`icons/x/y`. -/
theorem truncate_path_spec_witness :
    truncate_path (("icons").toList) (("/a/b/icons/x/y").toList) = ("icons/x/y").toList := by
  have h :=
    (truncate_path_spec (("icons").toList) (("/a/b/icons/x/y").toList)).1 5 (by decide)
  rw [h.1]
  decide

/-! ### Lemmas about the duplicate scan and dict insertion -/

/-- The scan fails exactly when no leaf of the map carries the name. -/
theorem orFirst_none_iff (n : List Char) (b : Nat) :
    ∀ l : IconMap, orFirst n b l = none ↔ findLeaf n l = none := by
  intro l
  induction l with
  | nil => simp [orFirst, findLeaf]
  | cons e rest ih =>
    obtain ⟨k0, v0⟩ := e
    cases v0 with
    | leaf f =>
      by_cases hf : f.name = n
      · simp [orFirst, findLeaf, hf]
      · simp [orFirst, findLeaf, hf, Option.map_eq_none', ih]
    | node m =>
      simp [orFirst, findLeaf, Option.map_eq_none', ih]

/-- A found leaf carries the searched name. -/
theorem findLeaf_name (n : List Char) :
    ∀ (l : IconMap) (f : JField), findLeaf n l = some f → f.name = n := by
  intro l
  induction l with
  | nil => intro f hf; simp [findLeaf] at hf
  | cons e rest ih =>
    obtain ⟨k0, v0⟩ := e
    intro f hf
    cases v0 with
    | leaf g =>
      by_cases hg : g.name = n
      · rw [findLeaf, if_pos hg] at hf
        cases hf
        exact hg
      · rw [findLeaf, if_neg hg] at hf
        exact ih f hf
    | node m =>
      rw [findLeaf] at hf
      exact ih f hf

/-- No leaf carries the name exactly when the count is zero. -/
theorem findLeaf_none_iff_count (n : List Char) :
    ∀ l : IconMap, findLeaf n l = none ↔ countLeafName n l = 0 := by
  intro l
  induction l with
  | nil => simp [findLeaf, countLeafName]
  | cons e rest ih =>
    obtain ⟨k0, v0⟩ := e
    cases v0 with
    | leaf f =>
      by_cases hf : f.name = n
      · simp [findLeaf, countLeafName, hf]
      · simp [findLeaf, countLeafName, hf, ih]
    | node m =>
      simp [findLeaf, countLeafName, ih]

/-- Success of the scan: it updates exactly the first matching leaf,
ORing the new flags into it and leaving name, key, path, the dict key,
every other entry, and all the per-name leaf counts unchanged. -/
theorem orFirst_some_spec (n : List Char) (b : Nat) :
    ∀ (l : IconMap) (f : JField), findLeaf n l = some f →
      ∃ l', orFirst n b l = some l' ∧
        findLeaf n l' = some ⟨f.name, f.key, f.flags ||| b, f.path⟩ ∧
        (∀ m, countLeafName m l' = countLeafName m l) ∧
        (∀ (k : List Char) (g : JField), (k, Node.leaf g) ∈ l →
          ∃ g', (k, Node.leaf g') ∈ l' ∧ g'.name = g.name ∧ g'.key = g.key ∧
            g'.path = g.path ∧ g.flags ||| g'.flags = g'.flags) := by
  intro l
  induction l with
  | nil => intro f hf; simp [findLeaf] at hf
  | cons e rest ih =>
    obtain ⟨k0, v0⟩ := e
    intro f hf
    cases v0 with
    | leaf g =>
      by_cases hg : g.name = n
      · rw [findLeaf, if_pos hg] at hf
        cases hf
        refine ⟨(k0, Node.leaf ⟨f.name, f.key, f.flags ||| b, f.path⟩) :: rest, ?_, ?_, ?_, ?_⟩
        · rw [orFirst, if_pos hg]
        · rw [findLeaf, if_pos hg]
        · intro m
          simp [countLeafName]
        · intro k g hkg
          rcases List.mem_cons.mp hkg with hhead | htail
          · cases hhead
            refine ⟨⟨f.name, f.key, f.flags ||| b, f.path⟩, List.mem_cons_self _ _, rfl, rfl, rfl, ?_⟩
            show f.flags ||| (f.flags ||| b) = f.flags ||| b
            rw [← Nat.or_assoc, Nat.or_self]
          · exact ⟨g, List.mem_cons_of_mem _ htail, rfl, rfl, rfl, Nat.or_self _⟩
      · rw [findLeaf, if_neg hg] at hf
        rcases ih f hf with ⟨rest', hor, hfind, hcount, hpres⟩
        refine ⟨(k0, Node.leaf g) :: rest', ?_, ?_, ?_, ?_⟩
        · rw [orFirst, if_neg hg, hor]
          rfl
        · rw [findLeaf, if_neg hg]
          exact hfind
        · intro m
          simp [countLeafName, hcount m]
        · intro k g1 hkg
          rcases List.mem_cons.mp hkg with hhead | htail
          · injection hhead with hk1 hv1
            injection hv1 with hg1
            subst hk1
            subst hg1
            exact ⟨g1, List.mem_cons_self _ _, rfl, rfl, rfl, Nat.or_self _⟩
          · rcases hpres k g1 htail with ⟨g', hg', h1, h2, h3, h4⟩
            exact ⟨g', List.mem_cons_of_mem _ hg', h1, h2, h3, h4⟩
    | node m0 =>
      rw [findLeaf] at hf
      rcases ih f hf with ⟨rest', hor, hfind, hcount, hpres⟩
      refine ⟨(k0, Node.node m0) :: rest', ?_, ?_, ?_, ?_⟩
      · rw [orFirst, hor]
        rfl
      · rw [findLeaf]
        exact hfind
      · intro m
        simp [countLeafName, hcount m]
      · intro k g1 hkg
        rcases List.mem_cons.mp hkg with hhead | htail
        · cases hhead
        · rcases hpres k g1 htail with ⟨g', hg', h1, h2, h3, h4⟩
          exact ⟨g', List.mem_cons_of_mem _ hg', h1, h2, h3, h4⟩

/-- Inserting a fresh leaf of name `n` into a map with no `n`-leaf gives
exactly one `n`-leaf. -/
theorem countLeafName_insertAssoc_fresh (n : List Char) (k : List Char) (f : JField)
    (hname : f.name = n) :
    ∀ l : IconMap, countLeafName n l = 0 →
      countLeafName n (insertAssoc k (Node.leaf f) l) = 1 := by
  intro l
  induction l with
  | nil => intro _; simp [insertAssoc, countLeafName, hname]
  | cons e rest ih =>
    obtain ⟨k0, v0⟩ := e
    intro hcount
    by_cases hk : k0 = k
    · rw [insertAssoc, if_pos hk]
      cases v0 with
      | leaf g =>
        simp only [countLeafName] at hcount ⊢
        have hgn : ¬g.name = n := by
          intro hg
          rw [if_pos hg] at hcount
          omega
        rw [if_neg hgn] at hcount
        rw [if_pos hname]
        omega
      | node m =>
        simp only [countLeafName] at hcount ⊢
        rw [if_pos hname]
        omega
    · rw [insertAssoc, if_neg hk]
      cases v0 with
      | leaf g =>
        simp only [countLeafName] at hcount ⊢
        have hg : ¬g.name = n := by
          intro hg
          rw [if_pos hg] at hcount
          omega
        rw [if_neg hg] at hcount ⊢
        have h2 := ih (by omega)
        omega
      | node m =>
        simp only [countLeafName] at hcount ⊢
        exact ih (by omega)

/-- The freshly inserted leaf is the one `findLeaf` then returns. -/
theorem findLeaf_insertAssoc_fresh (n : List Char) (k : List Char) (f : JField)
    (hname : f.name = n) :
    ∀ l : IconMap, countLeafName n l = 0 →
      findLeaf n (insertAssoc k (Node.leaf f) l) = some f := by
  intro l
  induction l with
  | nil => intro _; simp [insertAssoc, findLeaf, hname]
  | cons e rest ih =>
    obtain ⟨k0, v0⟩ := e
    intro hcount
    by_cases hk : k0 = k
    · rw [insertAssoc, if_pos hk]
      rw [findLeaf, if_pos hname]
    · rw [insertAssoc, if_neg hk]
      cases v0 with
      | leaf g =>
        simp only [countLeafName] at hcount
        have hg : ¬g.name = n := by
          intro hg
          rw [if_pos hg] at hcount
          omega
        rw [if_neg hg] at hcount
        rw [findLeaf, if_neg hg]
        exact ih (by omega)
      | node m =>
        simp only [countLeafName] at hcount
        rw [findLeaf]
        exact ih (by omega)

/-- Inserting a leaf raises a per-name count by at most the new leaf's
own contribution (an overwrite can also lower counts). -/
theorem countLeafName_insertAssoc_leaf_le (m : List Char) (k : List Char) (f : JField) :
    ∀ l : IconMap, countLeafName m (insertAssoc k (Node.leaf f) l) ≤
      countLeafName m l + (if f.name = m then 1 else 0) := by
  intro l
  induction l with
  | nil => simp [insertAssoc, countLeafName]
  | cons e rest ih =>
    obtain ⟨k0, v0⟩ := e
    by_cases hk : k0 = k
    · rw [insertAssoc, if_pos hk]
      cases v0 with
      | leaf g => simp only [countLeafName]; omega
      | node m0 => simp only [countLeafName]; omega
    · rw [insertAssoc, if_neg hk]
      cases v0 with
      | leaf g => simp only [countLeafName]; omega
      | node m0 => simp only [countLeafName]; exact ih

/-- Inserting a directory node never raises any leaf count. -/
theorem countLeafName_insertAssoc_node_le (m : List Char) (k : List Char) (s : IconMap) :
    ∀ l : IconMap, countLeafName m (insertAssoc k (Node.node s) l) ≤ countLeafName m l := by
  intro l
  induction l with
  | nil => simp [insertAssoc, countLeafName]
  | cons e rest ih =>
    obtain ⟨k0, v0⟩ := e
    by_cases hk : k0 = k
    · rw [insertAssoc, if_pos hk]
      cases v0 with
      | leaf g => simp only [countLeafName]; omega
      | node m0 => simp only [countLeafName]; omega
    · rw [insertAssoc, if_neg hk]
      cases v0 with
      | leaf g => simp only [countLeafName]; omega
      | node m0 => simp only [countLeafName]; exact ih

/-- Insertion under a key absent from the map is an append. -/
theorem insertAssoc_of_not_mem (k : List Char) (v : Node) :
    ∀ l : IconMap, (∀ w, (k, w) ∉ l) → insertAssoc k v l = l ++ [(k, v)] := by
  intro l
  induction l with
  | nil => intro _; rfl
  | cons e rest ih =>
    obtain ⟨k0, v0⟩ := e
    intro hfresh
    have hk : ¬k0 = k := by
      intro hk
      exact hfresh v0 (by rw [hk]; exact List.mem_cons_self _ _)
    rw [insertAssoc, if_neg hk, List.cons_append]
    rw [ih (fun w hw => hfresh w (List.mem_cons_of_mem _ hw))]

/-- Unfolding `_process_file` on a matching extension when no same-name
leaf exists: a fresh entry is stored under the truncated path. -/
theorem process_file_insert_eq (src : List Char) (exts : List (List Char)) (dirPath : List Char)
    (key : Int) (fname : List Char) (dest : IconMap)
    (hext : suffix fname ∈ exts)
    (hnone : orFirst (normalize_name (stem fname)) (get_flags fname) dest = none) :
    process_file src exts dirPath key fname dest =
      insertAssoc (truncate_path src (dirPath ++ '/' :: normalize_name (stem fname)))
        (Node.leaf ⟨normalize_name (stem fname), key, get_flags fname,
          truncate_path src (dirPath ++ '/' :: normalize_name (stem fname))⟩) dest := by
  simp only [process_file, hext, if_true, hnone]

/-- Unfolding `_process_file` on a matching extension when a same-name
leaf exists: the scan's updated map is the result. -/
theorem process_file_merge_eq (src : List Char) (exts : List (List Char)) (dirPath : List Char)
    (key : Int) (fname : List Char) (dest updated : IconMap)
    (hext : suffix fname ∈ exts)
    (hsome : orFirst (normalize_name (stem fname)) (get_flags fname) dest = some updated) :
    process_file src exts dirPath key fname dest = updated := by
  simp only [process_file, hext, if_true, hsome]

/-- Unfolding `_process_file` on a non-matching extension: the map is
untouched. -/
theorem process_file_skip_eq (src : List Char) (exts : List (List Char)) (dirPath : List Char)
    (key : Int) (fname : List Char) (dest : IconMap)
    (hext : ¬suffix fname ∈ exts) :
    process_file src exts dirPath key fname dest = dest := by
  simp only [process_file, hext, if_false]

/-! ### C3 -/

/-- C3: two files of the same directory map whose names normalize to the
same name, the first inserted into a map holding no leaf of that name:
after both are processed there is exactly one leaf of that name, its
flags are the OR of the two files' flags, and its key and path are the
first file's. -/
theorem two_variant_files_merge (src dirPath f1 f2 : List Char) (exts : List (List Char))
    (dest : IconMap) (k1 k2 : Int)
    (h1 : suffix f1 ∈ exts) (h2 : suffix f2 ∈ exts)
    (hsame : normalize_name (stem f1) = normalize_name (stem f2))
    (hfresh : findLeaf (normalize_name (stem f1)) dest = none) :
    countLeafName (normalize_name (stem f1))
        (process_file src exts dirPath k2 f2 (process_file src exts dirPath k1 f1 dest)) = 1 ∧
    findLeaf (normalize_name (stem f1))
        (process_file src exts dirPath k2 f2 (process_file src exts dirPath k1 f1 dest)) =
      some ⟨normalize_name (stem f1), k1, get_flags f1 ||| get_flags f2,
        truncate_path src (dirPath ++ '/' :: normalize_name (stem f1))⟩ := by
  have hcount0 : countLeafName (normalize_name (stem f1)) dest = 0 :=
    (findLeaf_none_iff_count _ dest).mp hfresh
  have hnone : orFirst (normalize_name (stem f1)) (get_flags f1) dest = none :=
    (orFirst_none_iff _ _ dest).mpr hfresh
  have hd1 := process_file_insert_eq src exts dirPath k1 f1 dest h1 hnone
  have hfind1 : findLeaf (normalize_name (stem f1))
      (process_file src exts dirPath k1 f1 dest) =
      some ⟨normalize_name (stem f1), k1, get_flags f1,
        truncate_path src (dirPath ++ '/' :: normalize_name (stem f1))⟩ := by
    rw [hd1]
    apply findLeaf_insertAssoc_fresh
    · rfl
    · exact hcount0
  have hcount1 : countLeafName (normalize_name (stem f1))
      (process_file src exts dirPath k1 f1 dest) = 1 := by
    rw [hd1]
    apply countLeafName_insertAssoc_fresh
    · rfl
    · exact hcount0
  rcases orFirst_some_spec (normalize_name (stem f1)) (get_flags f2) _ _ hfind1 with
    ⟨l', hor, hfind2, hcnt2, _⟩
  have hd2 : process_file src exts dirPath k2 f2 (process_file src exts dirPath k1 f1 dest) = l' :=
    process_file_merge_eq src exts dirPath k2 f2 _ l' h2 (hsame ▸ hor)
  rw [hd2]
  constructor
  · rw [hcnt2, hcount1]
  · exact hfind2

/-- C3 witness: `foo.svg` then `foo_dark.svg` in directory `icons` with
marker `icons` produce a single `foo` entry with flags `0 ||| 2`, the
first file's key `-1`, and path `icons/foo`. -/
theorem two_variant_files_merge_witness :
    countLeafName (("foo").toList)
        (process_file (("icons").toList) defaultExts (("icons").toList) (-2)
          (("foo_dark.svg").toList)
          (process_file (("icons").toList) defaultExts (("icons").toList) (-1)
            (("foo.svg").toList) [])) = 1 ∧
    findLeaf (("foo").toList)
        (process_file (("icons").toList) defaultExts (("icons").toList) (-2)
          (("foo_dark.svg").toList)
          (process_file (("icons").toList) defaultExts (("icons").toList) (-1)
            (("foo.svg").toList) [])) =
      some ⟨("foo").toList, -1, 2, ("icons/foo").toList⟩ :=
  two_variant_files_merge (("icons").toList) (("icons").toList) (("foo.svg").toList)
    (("foo_dark.svg").toList) defaultExts [] (-1) (-2)
    (by decide) (by decide) (by decide) (by decide)

/-! ### C7 -/

/-- C7 counterexample: with source marker `d`, the files `ad.svg` and
`cd.svg` in directory `x` both truncate to the stored path `d`; their
names `ad` and `cd` differ, so no merge happens, and the dict assignment
`dest[full_name] = JField(...)` overwrites: processing `cd.svg` deletes
the `ad` entry, so that entry's key and flags do not survive the step —
the claimed flag-growth and key-immutability are violated by this step. -/
theorem process_file_overwrite_counterexample :
    findLeaf (("ad").toList)
        (process_file (("d").toList) defaultExts (("x").toList) (-1) (("ad.svg").toList) []) =
      some ⟨("ad").toList, -1, 0, ("d").toList⟩ ∧
    findLeaf (("ad").toList)
        (process_file (("d").toList) defaultExts (("x").toList) (-2) (("cd.svg").toList)
          (process_file (("d").toList) defaultExts (("x").toList) (-1)
            (("ad.svg").toList) [])) = none := by
  constructor
  · decide
  · decide

/-- C7 (amended): a file-processing step always preserves the
at-most-one-leaf-per-normalized-name invariant; and provided the step,
when it inserts, does so under a path key not already present in the
node (which can fail only when the source marker makes two different
names truncate to the same stored path), every existing leaf survives
with its name, key and path unchanged and its flag bits a subset of the
resulting flags. -/
theorem process_file_invariants (src : List Char) (exts : List (List Char)) (dirPath : List Char)
    (key : Int) (fname : List Char) (dest : IconMap)
    (hwf : ∀ m, countLeafName m dest ≤ 1) :
    (∀ m, countLeafName m (process_file src exts dirPath key fname dest) ≤ 1) ∧
    ((orFirst (normalize_name (stem fname)) (get_flags fname) dest = none →
        ∀ w, (truncate_path src (dirPath ++ '/' :: normalize_name (stem fname)), w) ∉ dest) →
      ∀ (k : List Char) (f : JField), (k, Node.leaf f) ∈ dest →
        ∃ f', (k, Node.leaf f') ∈ process_file src exts dirPath key fname dest ∧
          f'.name = f.name ∧ f'.key = f.key ∧ f'.path = f.path ∧
          f.flags ||| f'.flags = f'.flags) := by
  by_cases hext : suffix fname ∈ exts
  · cases hor : orFirst (normalize_name (stem fname)) (get_flags fname) dest with
    | some l' =>
      have hd := process_file_merge_eq src exts dirPath key fname dest l' hext hor
      have hfind : ∃ f0, findLeaf (normalize_name (stem fname)) dest = some f0 := by
        cases hf : findLeaf (normalize_name (stem fname)) dest with
        | none =>
          rw [(orFirst_none_iff _ _ dest).mpr hf] at hor
          cases hor
        | some f0 => exact ⟨f0, rfl⟩
      rcases hfind with ⟨f0, hf0⟩
      rcases orFirst_some_spec (normalize_name (stem fname)) (get_flags fname) dest f0 hf0 with
        ⟨l'', hor2, _, hcnt, hpres⟩
      rw [hor] at hor2
      cases hor2
      constructor
      · intro m
        rw [hd, hcnt]
        exact hwf m
      · intro _ k f hmem
        rw [hd]
        exact hpres k f hmem
    | none =>
      have hd := process_file_insert_eq src exts dirPath key fname dest hext hor
      have hcount0 : countLeafName (normalize_name (stem fname)) dest = 0 :=
        (findLeaf_none_iff_count _ dest).mp ((orFirst_none_iff _ _ dest).mp hor)
      constructor
      · intro m
        rw [hd]
        refine le_trans (countLeafName_insertAssoc_leaf_le m _ _ dest) ?_
        by_cases hm : normalize_name (stem fname) = m
        · subst hm
          rw [hcount0]
          simp
        · rw [if_neg hm]
          simpa using hwf m
      · intro hkey k f hmem
        rw [hd, insertAssoc_of_not_mem _ _ dest (hkey rfl)]
        exact ⟨f, List.mem_append_left _ hmem, rfl, rfl, rfl, Nat.or_self _⟩
  · rw [process_file_skip_eq src exts dirPath key fname dest hext]
    exact ⟨hwf, fun _ k f hmem => ⟨f, hmem, rfl, rfl, rfl, Nat.or_self _⟩⟩

/-- C7 witness: the amended theorem applied to processing `foo.svg` into
a node holding one `bar` entry: the count stays at most one and the
`bar` entry survives untouched. -/
theorem process_file_invariants_witness :
    countLeafName (("bar").toList)
        (process_file (("icons").toList) defaultExts (("icons").toList) (-1)
          (("foo.svg").toList)
          [(("icons/bar").toList,
            Node.leaf ⟨("bar").toList, -5, 1, ("icons/bar").toList⟩)]) ≤ 1 ∧
    ∃ f', (("icons/bar").toList, Node.leaf f') ∈
        process_file (("icons").toList) defaultExts (("icons").toList) (-1)
          (("foo.svg").toList)
          [(("icons/bar").toList,
            Node.leaf ⟨("bar").toList, -5, 1, ("icons/bar").toList⟩)] ∧
      f'.name = ("bar").toList ∧ f'.key = -5 ∧ f'.path = ("icons/bar").toList ∧
      (1 : Nat) ||| f'.flags = f'.flags := by
  have hwf : ∀ m, countLeafName m
      [(("icons/bar").toList,
        Node.leaf ⟨("bar").toList, -5, 1, ("icons/bar").toList⟩)] ≤ 1 := by
    intro m
    simp only [countLeafName]
    split
    · omega
    · omega
  have h := process_file_invariants (("icons").toList) defaultExts (("icons").toList) (-1)
    (("foo.svg").toList)
    [(("icons/bar").toList, Node.leaf ⟨("bar").toList, -5, 1, ("icons/bar").toList⟩)] hwf
  refine ⟨h.1 (("bar").toList), ?_⟩
  have hmem := h.2 ?_ (("icons/bar").toList) ⟨("bar").toList, -5, 1, ("icons/bar").toList⟩
    (List.mem_cons_self _ _)
  · exact hmem
  · intro _ w hw
    rw [List.mem_singleton] at hw
    injection hw with hw1 hw2
    exact absurd hw1 (by decide)

/-! ### C10 -/

/-- C10: a file whose stem normalizes to the empty string gets an
IconEntry named `""` (creating it when no empty-named leaf exists,
merging into the unique existing one otherwise), and the declaration
line emitted for an empty-named entry has an empty identifier between
`Icon ` and ` =` (two consecutive spaces). -/
theorem empty_name_entry (src dirPath fname : List Char) (exts : List (List Char))
    (dest : IconMap) (key : Int)
    (hext : suffix fname ∈ exts) (hname : normalize_name (stem fname) = []) :
    (findLeaf [] dest = none →
      countLeafName [] (process_file src exts dirPath key fname dest) = 1) ∧
    (∀ f0, findLeaf [] dest = some f0 → countLeafName [] dest = 1 →
      countLeafName [] (process_file src exts dirPath key fname dest) = 1 ∧
      findLeaf [] (process_file src exts dirPath key fname dest) =
        some ⟨[], f0.key, f0.flags ||| get_flags fname, f0.path⟩) ∧
    (∀ f : JField, f.name = [] →
      JField.str f = ("public static final Icon  = load(\"/").toList ++ f.path
        ++ ("\", ").toList ++ pyHex f.key ++ ("L, ").toList ++ pyHex (Int.ofNat f.flags)
        ++ (");").toList) := by
  refine ⟨?_, ?_, ?_⟩
  · intro hfresh
    have hnone : orFirst (normalize_name (stem fname)) (get_flags fname) dest = none := by
      rw [hname]
      exact (orFirst_none_iff _ _ dest).mpr hfresh
    have hcount0 : countLeafName [] dest = 0 := (findLeaf_none_iff_count _ dest).mp hfresh
    rw [process_file_insert_eq src exts dirPath key fname dest hext hnone]
    exact countLeafName_insertAssoc_fresh _ _ _ hname dest hcount0
  · intro f0 hf0 hc1
    have hf0name : f0.name = [] := findLeaf_name _ dest f0 hf0
    have hf0' : findLeaf (normalize_name (stem fname)) dest = some f0 := by
      rw [hname]
      exact hf0
    rcases orFirst_some_spec (normalize_name (stem fname)) (get_flags fname) dest f0 hf0' with
      ⟨l', hor, hfind, hcnt, _⟩
    have hd := process_file_merge_eq src exts dirPath key fname dest l' hext hor
    rw [hd]
    refine ⟨?_, ?_⟩
    · rw [hcnt]
      exact hc1
    · rw [hname] at hfind
      rw [hfind, hf0name]
  · intro f hf
    obtain ⟨nm, k0, fl, p⟩ := f
    simp only at hf
    subst hf
    rfl

/-- C10 witness: `_dark.svg` (stem `_dark`, which normalizes to the
empty string) processed into an empty map creates exactly one
empty-named entry. -/
theorem empty_name_entry_witness :
    countLeafName []
      (process_file (("icons").toList) defaultExts (("icons").toList) (-1)
        (("_dark.svg").toList) []) = 1 :=
  (empty_name_entry (("icons").toList) (("icons").toList) (("_dark.svg").toList)
    defaultExts [] (-1) (by decide) (by decide)).1 (by decide)

/-! ### C5 -/

/-- C5: processing a directory decrements the key counter once per
non-directory entry visited anywhere in it (subdirectories included),
whatever the extensions and however many IconEntry records are created:
the final key is the starting key minus `countFiles`. -/
theorem process_dir_key_consumption (src : List Char) (exts : List (List Char))
    (dirPath : List Char) (children : List FSEntry) (key : Int) (imap : IconMap) :
    (process_dir src exts dirPath children (key, imap)).1 = key - countFiles children := by
  induction children using countFiles.induct generalizing dirPath key imap with
  | case1 => simp [process_dir, countFiles]
  | case2 n rest ih =>
    simp only [process_dir, countFiles]
    rw [ih]
    push_cast
    ring
  | case3 n cs rest ih1 ih2 =>
    simp only [process_dir, countFiles]
    rw [ih2, ih1]
    push_cast
    ring

/-! ### C8 machinery -/

/-- Whether `_process_file` will create a new entry for this file in
this map: matching extension and no existing leaf with the normalized
name. -/
def created (exts : List (List Char)) (fname : List Char)
    (dest : IconMap) : Bool :=
  decide (suffix fname ∈ exts) &&
    (orFirst (normalize_name (stem fname)) (get_flags fname) dest).isNone

mutual

/-- Keys of all `JField` leaves below a dict value. -/
def nodeKeys : Node → List Int
  | Node.leaf f => [f.key]
  | Node.node m => allKeys m

/-- Keys of all `JField` leaves of a map, nested nodes included, in dict
order. -/
def allKeys : IconMap → List Int
  | [] => []
  | (_, v) :: rest => nodeKeys v ++ allKeys rest

end

/-- Ghost-instrumented `_process_dir`: identical recursion, returning
additionally the list of keys given to newly created IconEntry records,
in creation order. -/
def process_dir_tr (src : List Char) (exts : List (List Char)) (dirPath : List Char) :
    List FSEntry → Int × IconMap → Int × IconMap × List Int
  | [], (key, imap) => (key, imap, [])
  | FSEntry.file n :: rest, (key, imap) =>
    let r := process_dir_tr src exts dirPath rest
      (key - 1, process_file src exts dirPath (key - 1) n imap)
    (r.1, r.2.1, (if created exts n imap then [key - 1] else []) ++ r.2.2)
  | FSEntry.dir n children :: rest, (key, imap) =>
    let sub := process_dir_tr src exts (dirPath ++ '/' :: n) children (key, [])
    let r := process_dir_tr src exts dirPath rest (sub.1, insertAssoc n (Node.node sub.2.1) imap)
    (r.1, r.2.1, sub.2.2 ++ r.2.2)

/-- The instrumented run computes the same state as `_process_dir`. -/
theorem process_dir_tr_proj (src : List Char) (exts : List (List Char)) :
    ∀ (children : List FSEntry) (dirPath : List Char) (key : Int) (imap : IconMap),
      (process_dir_tr src exts dirPath children (key, imap)).1 =
        (process_dir src exts dirPath children (key, imap)).1 ∧
      (process_dir_tr src exts dirPath children (key, imap)).2.1 =
        (process_dir src exts dirPath children (key, imap)).2 := by
  intro children
  induction children using countFiles.induct with
  | case1 => intro dirPath key imap; simp [process_dir_tr, process_dir]
  | case2 n rest ih =>
    intro dirPath key imap
    simp only [process_dir_tr, process_dir]
    exact ih dirPath (key - 1) _
  | case3 n cs rest ih1 ih2 =>
    intro dirPath key imap
    simp only [process_dir_tr, process_dir]
    rcases ih1 (dirPath ++ '/' :: n) key [] with ⟨hk, hm⟩
    rw [hk, hm]
    exact ih2 dirPath _ _

/-- The scan changes no key: a successful `orFirst` preserves `allKeys`
exactly. -/
theorem orFirst_allKeys (n : List Char) (b : Nat) :
    ∀ (l l' : IconMap), orFirst n b l = some l' → allKeys l' = allKeys l := by
  intro l
  induction l with
  | nil => intro l' h; simp [orFirst] at h
  | cons e rest ih =>
    obtain ⟨k0, v0⟩ := e
    intro l' h
    cases v0 with
    | leaf f =>
      by_cases hf : f.name = n
      · rw [orFirst, if_pos hf] at h
        cases h
        simp [allKeys, nodeKeys]
      · rw [orFirst, if_neg hf] at h
        rcases Option.map_eq_some'.mp h with ⟨r', hr', hcons⟩
        subst hcons
        simp [allKeys, nodeKeys, ih r' hr']
    | node m =>
      rw [orFirst] at h
      rcases Option.map_eq_some'.mp h with ⟨r', hr', hcons⟩
      subst hcons
      simp [allKeys, nodeKeys, ih r' hr']

/-- Keys after a dict assignment: every key comes from the old map or
the new value, and freshness of the new value's keys preserves
`Nodup` (an overwrite only deletes keys). -/
theorem insertAssoc_allKeys (k : List Char) (v : Node) :
    ∀ l : IconMap,
      (∀ x ∈ allKeys (insertAssoc k v l), x ∈ allKeys l ∨ x ∈ nodeKeys v) ∧
      ((allKeys l).Nodup → (nodeKeys v).Nodup → (∀ x ∈ nodeKeys v, x ∉ allKeys l) →
        (allKeys (insertAssoc k v l)).Nodup) := by
  intro l
  induction l with
  | nil =>
    constructor
    · intro x hx
      right
      simpa [insertAssoc, allKeys] using hx
    · intro _ hv _
      simpa [insertAssoc, allKeys] using hv
  | cons e rest ih =>
    obtain ⟨k0, v0⟩ := e
    by_cases hk : k0 = k
    · rw [insertAssoc, if_pos hk]
      constructor
      · intro x hx
        rcases List.mem_append.mp (by simpa [allKeys] using hx) with hxv | hxr
        · exact Or.inr hxv
        · exact Or.inl (by simp [allKeys]; exact Or.inr hxr)
      · intro hl hv hdisj
        simp only [allKeys] at hl ⊢
        rw [List.nodup_append] at hl ⊢
        refine ⟨hv, hl.2.1, ?_⟩
        intro x hxv hxr
        exact hdisj x hxv (by simp [allKeys]; exact Or.inr hxr)
    · rw [insertAssoc, if_neg hk]
      constructor
      · intro x hx
        rcases List.mem_append.mp (by simpa [allKeys] using hx) with hxv | hxr
        · exact Or.inl (by simp [allKeys]; exact Or.inl hxv)
        · rcases (ih.1 x hxr) with hold | hnew
          · exact Or.inl (by simp [allKeys]; exact Or.inr hold)
          · exact Or.inr hnew
      · intro hl hv hdisj
        simp only [allKeys] at hl
        rw [List.nodup_append] at hl
        have hrest : (allKeys (insertAssoc k v rest)).Nodup :=
          ih.2 hl.2.1 hv (fun x hx hmem =>
            hdisj x hx (by simp [allKeys]; exact Or.inr hmem))
        simp only [allKeys]
        rw [List.nodup_append]
        refine ⟨hl.1, hrest, ?_⟩
        intro x hxv hxr
        rcases ih.1 x hxr with hold | hnew
        · exact hl.2.2 hxv hold
        · exact hdisj x hnew (by simp [allKeys]; exact Or.inl hxv)

/-- Keys after one `_process_file`: unchanged unless an entry is
created, in which case exactly the new key can appear, and `Nodup` is
preserved when that key is fresh. -/
theorem process_file_allKeys (src : List Char) (exts : List (List Char)) (dirPath : List Char)
    (key : Int) (fname : List Char) (dest : IconMap) :
    (created exts fname dest = false →
      allKeys (process_file src exts dirPath key fname dest) = allKeys dest) ∧
    (created exts fname dest = true →
      (∀ x ∈ allKeys (process_file src exts dirPath key fname dest),
        x ∈ allKeys dest ∨ x = key) ∧
      ((allKeys dest).Nodup → key ∉ allKeys dest →
        (allKeys (process_file src exts dirPath key fname dest)).Nodup)) := by
  by_cases hext : suffix fname ∈ exts
  · cases hor : orFirst (normalize_name (stem fname)) (get_flags fname) dest with
    | some l' =>
      have hc : created exts fname dest = false := by
        simp [created, hor]
      have hd := process_file_merge_eq src exts dirPath key fname dest l' hext hor
      constructor
      · intro _
        rw [hd]
        exact orFirst_allKeys _ _ dest l' hor
      · intro hcontra
        rw [hc] at hcontra
        cases hcontra
    | none =>
      have hc : created exts fname dest = true := by
        simp [created, hor, hext]
      have hd := process_file_insert_eq src exts dirPath key fname dest hext hor
      constructor
      · intro hcontra
        rw [hc] at hcontra
        cases hcontra
      · intro _
        rw [hd]
        constructor
        · intro x hx
          rcases (insertAssoc_allKeys _ _ dest).1 x hx with hold | hnew
          · exact Or.inl hold
          · right
            simpa [nodeKeys] using hnew
        · intro hn hfresh
          refine (insertAssoc_allKeys _ _ dest).2 hn (by simp [nodeKeys]) ?_
          intro x hx
          rw [show x = key by simpa [nodeKeys] using hx]
          exact fun hmem => hfresh hmem
  · have hc : created exts fname dest = false := by
      simp [created, hext]
    have hd := process_file_skip_eq src exts dirPath key fname dest hext
    constructor
    · intro _
      rw [hd]
    · intro hcontra
      rw [hc] at hcontra
      cases hcontra

/-- Master invariant of the instrumented run, by induction over the
directory tree: the key only decreases; created keys lie strictly
between the final and initial key, in strictly decreasing creation
order; every key of the final map comes from the initial map or from the
created keys; and when the initial map's keys are distinct and at least
the initial counter, the final map's keys are distinct and at least the
final counter. -/
theorem process_dir_tr_master (src : List Char) (exts : List (List Char)) :
    ∀ (children : List FSEntry) (dirPath : List Char) (key : Int) (imap : IconMap)
      (key2 : Int) (imap2 : IconMap) (tr : List Int),
      process_dir_tr src exts dirPath children (key, imap) = (key2, imap2, tr) →
      key2 ≤ key ∧
      (∀ x ∈ tr, key2 ≤ x ∧ x < key) ∧
      List.Pairwise (fun a b => b < a) tr ∧
      (∀ x ∈ allKeys imap2, x ∈ allKeys imap ∨ x ∈ tr) ∧
      ((allKeys imap).Nodup → (∀ x ∈ allKeys imap, key ≤ x) →
        (allKeys imap2).Nodup ∧ ∀ x ∈ allKeys imap2, key2 ≤ x) := by
  intro children
  induction children using countFiles.induct with
  | case1 =>
    intro dirPath key imap key2 imap2 tr heq
    simp only [process_dir_tr] at heq
    injection heq with h1 h2
    injection h2 with h2a h2b
    subst h1
    subst h2a
    subst h2b
    refine ⟨le_refl key, by simp, by simp, fun x hx => Or.inl hx, fun hN hB => ⟨hN, hB⟩⟩
  | case2 n rest ih =>
    intro dirPath key imap key2 imap2 tr heq
    simp only [process_dir_tr] at heq
    injection heq with h1 h2
    injection h2 with h2a h2b
    subst h1
    subst h2a
    subst h2b
    obtain ⟨A, B, C, D, E⟩ :=
      ih dirPath (key - 1) (process_file src exts dirPath (key - 1) n imap) _ _ _ rfl
    have hpf := process_file_allKeys src exts dirPath (key - 1) n imap
    refine ⟨by omega, ?_, ?_, ?_, ?_⟩
    · intro x hx
      rcases List.mem_append.mp hx with hpre | hrest
      · cases hc : created exts n imap with
        | true =>
          rw [hc] at hpre
          simp only [if_true] at hpre
          rw [List.mem_singleton] at hpre
          subst hpre
          exact ⟨by omega, by omega⟩
        | false =>
          rw [hc] at hpre
          simp at hpre
      · have hb := B x hrest
        exact ⟨hb.1, by omega⟩
    · cases hc : created exts n imap with
      | false => simpa [hc] using C
      | true =>
        have hif : (if true = true then [key - 1] else ([] : List Int)) = [key - 1] := by simp
        rw [hif, List.singleton_append, List.pairwise_cons]
        exact ⟨fun b hb => (B b hb).2, C⟩
    · intro x hx
      rcases D x hx with hin | htr
      · cases hc : created exts n imap with
        | false =>
          rw [hpf.1 hc] at hin
          exact Or.inl hin
        | true =>
          rcases (hpf.2 hc).1 x hin with h | h
          · exact Or.inl h
          · right
            apply List.mem_append_left
            simp [h]
      · exact Or.inr (List.mem_append_right _ htr)
    · intro hN hB
      have hNpf : (allKeys (process_file src exts dirPath (key - 1) n imap)).Nodup := by
        cases hc : created exts n imap with
        | false =>
          rw [hpf.1 hc]
          exact hN
        | true =>
          refine (hpf.2 hc).2 hN ?_
          intro hmem
          have := hB _ hmem
          omega
      have hBpf : ∀ x ∈ allKeys (process_file src exts dirPath (key - 1) n imap),
          key - 1 ≤ x := by
        intro x hx
        cases hc : created exts n imap with
        | false =>
          rw [hpf.1 hc] at hx
          have := hB x hx
          omega
        | true =>
          rcases (hpf.2 hc).1 x hx with h | h
          · have := hB x h
            omega
          · omega
      exact E hNpf hBpf
  | case3 n cs rest ih1 ih2 =>
    intro dirPath key imap key2 imap2 tr heq
    simp only [process_dir_tr] at heq
    injection heq with h1 h2
    injection h2 with h2a h2b
    subst h1
    subst h2a
    subst h2b
    obtain ⟨SA, SB, SC, SD, SE⟩ := ih1 (dirPath ++ '/' :: n) key [] _ _ _ rfl
    have hSE := SE (by simp [allKeys]) (by simp [allKeys])
    have hSsub : ∀ x ∈ allKeys (process_dir_tr src exts (dirPath ++ '/' :: n) cs (key, [])).2.1,
        x ∈ (process_dir_tr src exts (dirPath ++ '/' :: n) cs (key, [])).2.2 := by
      intro x hx
      rcases SD x hx with h | h
      · simp [allKeys] at h
      · exact h
    have hins := insertAssoc_allKeys n
      (Node.node (process_dir_tr src exts (dirPath ++ '/' :: n) cs (key, [])).2.1) imap
    obtain ⟨A, B, C, D, E⟩ := ih2 dirPath
      (process_dir_tr src exts (dirPath ++ '/' :: n) cs (key, [])).1
      (insertAssoc n
        (Node.node (process_dir_tr src exts (dirPath ++ '/' :: n) cs (key, [])).2.1) imap)
      _ _ _ rfl
    refine ⟨by omega, ?_, ?_, ?_, ?_⟩
    · intro x hx
      rcases List.mem_append.mp hx with hsub | hrest
      · have hb := SB x hsub
        exact ⟨by omega, hb.2⟩
      · have hb := B x hrest
        exact ⟨hb.1, by omega⟩
    · rw [List.pairwise_append]
      refine ⟨SC, C, ?_⟩
      intro a ha b hb
      have h1 := SB a ha
      have h2 := B b hb
      omega
    · intro x hx
      rcases D x hx with hin | htr
      · rcases hins.1 x hin with hold | hnew
        · exact Or.inl hold
        · right
          apply List.mem_append_left
          exact hSsub x (by simpa [nodeKeys] using hnew)
      · exact Or.inr (List.mem_append_right _ htr)
    · intro hN hB
      have hNins : (allKeys (insertAssoc n
          (Node.node (process_dir_tr src exts (dirPath ++ '/' :: n) cs (key, [])).2.1)
          imap)).Nodup := by
        refine hins.2 hN (by simpa [nodeKeys] using hSE.1) ?_
        intro x hxv hmem
        have hxt := hSsub x (by simpa [nodeKeys] using hxv)
        have hlt := SB x hxt
        have := hB x hmem
        omega
      have hBins : ∀ x ∈ allKeys (insertAssoc n
          (Node.node (process_dir_tr src exts (dirPath ++ '/' :: n) cs (key, [])).2.1) imap),
          (process_dir_tr src exts (dirPath ++ '/' :: n) cs (key, [])).1 ≤ x := by
        intro x hx
        rcases hins.1 x hx with hold | hnew
        · have := hB x hold
          omega
        · exact hSE.2 x (by simpa [nodeKeys] using hnew)
      exact E hNins hBins

/-! ### C8 -/

/-- C8: over one collection run from an empty map, the keys handed to
created IconEntry records, taken in creation order (the trace of the
instrumented run, which computes the same state as `process`), are
strictly decreasing; every key found anywhere in the resulting tree is
one of those created keys; and hence the tree's keys are pairwise
distinct. -/
theorem process_keys_unique (src : List Char) (exts : List (List Char)) (rootPath : List Char)
    (children : List FSEntry) (key0 : Int) :
    List.Pairwise (fun a b => b < a)
      (process_dir_tr src exts rootPath children (key0, [])).2.2 ∧
    (allKeys (process src exts rootPath children key0).2).Nodup ∧
    ∀ k ∈ allKeys (process src exts rootPath children key0).2,
      k ∈ (process_dir_tr src exts rootPath children (key0, [])).2.2 := by
  obtain ⟨_, _, C, D, E⟩ :=
    process_dir_tr_master src exts children rootPath key0 [] _ _ _ rfl
  have hproj := process_dir_tr_proj src exts children rootPath key0 []
  have hmap : (process_dir_tr src exts rootPath children (key0, [])).2.1 =
      (process src exts rootPath children key0).2 := by
    rw [hproj.2]
    rfl
  refine ⟨C, ?_, ?_⟩
  · rw [← hmap]
    exact (E (by simp [allKeys]) (by simp [allKeys])).1
  · intro k hk
    rw [← hmap] at hk
    rcases D k hk with h | h
    · simp [allKeys] at h
    · exact h

/-- C8 witness: a one-file run; the file's key `-2` is a created key of
the trace. -/
theorem process_keys_unique_witness :
    (-2 : Int) ∈ (process_dir_tr (("icons").toList) defaultExts (("icons").toList)
      [FSEntry.file (("a.svg").toList)] (-1, [])).2.2 := by
  apply (process_keys_unique (("icons").toList) defaultExts (("icons").toList)
    [FSEntry.file (("a.svg").toList)] (-1)).2.2 (-2)
  have h1 : (process (("icons").toList) defaultExts (("icons").toList)
      [FSEntry.file (("a.svg").toList)] (-1)).2 =
      [(("icons/a").toList,
        Node.leaf ⟨("a").toList, -2, 0, ("icons/a").toList⟩)] := by
    simp only [process, process_dir]
    rfl
  rw [h1]
  simp [allKeys, nodeKeys]

end TraceIcons
